import Mathlib

/-!
Verification of the WMATA metro itinerary-reconstruction core (`metro/map.py`):
construction of the station network, decomposition of a path into straight
shots (`path_to_straightshots`), and reconstruction of historical trip times
(`path_travel_times`, `_find_next_connection`).

Timestamps are modelled as integers counted in minutes, so the fixed transfer
penalty `TRANSFER_TIME = pd.to_timedelta(1, unit='m')` is the integer 1 and
the SQL sanity bound `'1 day'` is the integer 1440.
-/

namespace Wmata

/-- Decidable equality for `Except` results. -/
def exceptDecEq {ε α : Type} [DecidableEq ε] [DecidableEq α] :
    DecidableEq (Except ε α) := fun x y =>
  match x, y with
  | .error e, .error e' =>
    if h : e = e' then .isTrue (by rw [h]) else .isFalse (by intro hc; cases hc; exact h rfl)
  | .error _, .ok _ => .isFalse (by intro hc; cases hc)
  | .ok _, .error _ => .isFalse (by intro hc; cases hc)
  | .ok v, .ok v' =>
    if h : v = v' then .isTrue (by rw [h]) else .isFalse (by intro hc; cases hc; exact h rfl)

instance {ε α : Type} [DecidableEq ε] [DecidableEq α] : DecidableEq (Except ε α) :=
  exceptDecEq

/-- The attribute dictionary of one edge of the directed multigraph.  Route
edges built from `neighboring_stations` rows carry `linecode` and
`directionnum`; transfer edges carry only the `station_transfer` flag. -/
structure EdgeAttrs where
  linecode : Option String
  directionnum : Option Nat
  station_transfer : Bool
deriving DecidableEq, Repr

/-- One directed edge of the multigraph: source node, target node, attributes. -/
abbrev MEdge := String × String × EdgeAttrs

def eSrc (e : MEdge) : String := e.1

def eDst (e : MEdge) : String := e.2.1

def eAttr (e : MEdge) : EdgeAttrs := e.2.2

/-- The directed multigraph (`networkx.MultiDiGraph`) as its list of edges.
Parallel edges between the same ordered pair of stations are distinct list
entries. -/
structure MGraph where
  edges : List MEdge
deriving DecidableEq, Repr

/-- `gDi.subgraph(path)`: the edges whose two endpoints both lie on the path. -/
def inducedEdges (g : MGraph) (path : List String) : List MEdge :=
  g.edges.filter (fun e => decide (eSrc e ∈ path) && decide (eDst e ∈ path))

/-- The parallel edges from `a` to `b` in an edge list. -/
def hopEdges (edges : List MEdge) (a b : String) : List MEdge :=
  edges.filter (fun e => decide (eSrc e = a) && decide (eDst e = b))

/-- `sub[a][b].values()`: the attribute dictionaries of all parallel edges
from `a` to `b` in an edge list. -/
def hopAttrs (edges : List MEdge) (a b : String) : List EdgeAttrs :=
  (hopEdges edges a b).map eAttr

/-- All parallel edges of the full multigraph from `a` to `b`. -/
def hopAttrsAll (g : MGraph) (a b : String) : List EdgeAttrs :=
  hopAttrs g.edges a b

/-- One leg of a decomposition, as the dict built by `path_to_straightshots`. -/
structure Leg where
  departure_station : String
  arrival_station : String
  directionnum : Option Nat
  station_transfer : Bool
deriving DecidableEq, Repr

/-- The ways `path_to_straightshots` can fail (Python exceptions). -/
inductive SegError where
  /-- `a, b = path[:2]` on a path shorter than 2 with length different from 1. -/
  | badPath
  /-- `sub[a][b]` raises `KeyError`: no `a -> b` edge in the induced subgraph. -/
  | noEdge (a b : String)
  /-- `e['linecode']` / `e['directionnum']` raises `KeyError`. -/
  | badEdge
  /-- `ValueError('more than one direction out of station .. for path ..')`. -/
  | ambiguous (station : String) (path : List String)
  /-- `max()` of an empty reachable set raises `ValueError`. -/
  | emptyReach (station : String)
  /-- recursion did not reach a base case within the given fuel. -/
  | fuelOut
deriving DecidableEq, Repr

/-- Result of the non-recursive part of one `path_to_straightshots` call. -/
inductive Step where
  | base
  | fail (e : SegError)
  | go (leg : Leg) (idx : Nat)
deriving DecidableEq, Repr

/-- `s for s in opts` where a `None` entry would raise `KeyError`: collect the
values if all entries are present. -/
def seqOpts {α : Type} : List (Option α) → Option (List α)
  | [] => some []
  | none :: _ => none
  | some x :: rest => (seqOpts rest).map (fun xs => x :: xs)

/-- `max(l, key=lambda s: path.index(s))`: first element of `l` attaining the
maximal position in `path` (Python's `max` keeps the earliest maximum). -/
def maxByIdx (path : List String) : List String → Option String
  | [] => none
  | s :: ss =>
    match maxByIdx path ss with
    | none => some s
    | some m => some (if path.indexOf s < path.indexOf m then m else s)

/-- The edges of the induced subgraph that the `reachable` scan of
`path_to_straightshots` inspects: direction equal to `directionnum` and line
code different from `'YLRP'`. -/
def qualEdges (g : MGraph) (path : List String) (dn : Nat) : List MEdge :=
  (inducedEdges g path).filter (fun e =>
    decide ((eAttr e).directionnum = some dn) && decide ((eAttr e).linecode ≠ some "YLRP"))

/-- The line codes the scan records as entering node `n`. -/
def intoCodes (g : MGraph) (path : List String) (dn : Nat) (n : String) :
    List (Option String) :=
  ((qualEdges g path dn).filter (fun e => decide (eDst e = n))).map
    (fun e => (eAttr e).linecode)

/-- The nodes kept by `path_to_straightshots`: targets of qualifying edges
whose recorded incoming line codes contain every code of `linecodes`. -/
def keptNodes (g : MGraph) (path : List String) (dn : Nat)
    (linecodes : List String) : List String :=
  (((qualEdges g path dn).map eDst).dedup).filter (fun n =>
    linecodes.all (fun lc => decide (some lc ∈ intoCodes g path dn n)))

/-- `linecodes = {e['linecode'] for e in edges}; linecodes.discard('YLRP')`. -/
def lineCodesOf (lcsRaw : List String) : List String :=
  lcsRaw.dedup.filter (fun lc => decide (lc ≠ "YLRP"))

/-- The non-recursive part of one `path_to_straightshots` call: either the
base case, a failure, or one emitted leg together with
`path.index(furthest)`, the cut position for the recursive call. -/
def segStep (g : MGraph) (path : List String) : Step :=
  match path with
  | [] => .fail .badPath
  | [_] => .base
  | a :: b :: _ =>
    if hopAttrs (inducedEdges g path) a b = [] then .fail (.noEdge a b)
    else if (hopAttrs (inducedEdges g path) a b).any (fun ea => ea.station_transfer) then
      .go ⟨a, b, none, true⟩ (path.indexOf b)
    else
      match seqOpts ((hopAttrs (inducedEdges g path) a b).map (fun ea => ea.linecode)) with
      | none => .fail .badEdge
      | some lcsRaw =>
        match seqOpts ((hopAttrs (inducedEdges g path) a b).map (fun ea => ea.directionnum)) with
        | none => .fail .badEdge
        | some dnsRaw =>
          match dnsRaw.dedup with
          | [] => .fail .badEdge
          | [dn] =>
            match maxByIdx path (keptNodes g path dn (lineCodesOf lcsRaw)) with
            | none => .fail (.emptyReach a)
            | some furthest => .go ⟨a, furthest, some dn, false⟩ (path.indexOf furthest)
          | _ :: _ :: _ => .fail (.ambiguous a path)

/-- `path_to_straightshots(gDi, path)`, with explicit fuel standing for the
recursion depth Python allows.  Each recursive call works on
`path[path.index(furthest):]` and prepends the emitted leg to every
decomposition of the suffix. -/
def segmentFuel : Nat → MGraph → List String → Except SegError (List (List Leg))
  | 0, _, _ => .error .fuelOut
  | fuel + 1, g, path =>
    match segStep g path with
    | .base => .ok [[]]
    | .fail e => .error e
    | .go leg idx =>
      (segmentFuel fuel g (path.drop idx)).map (List.map (fun d => leg :: d))

/-- A route edge of the built multigraph. -/
def rideE (a b lc : String) (dn : Nat) : MEdge := (a, b, ⟨some lc, some dn, false⟩)

/-- Attributes `nx.set_edge_attributes(gtDi, 'station_transfer', True)` puts on
a transfer edge. -/
def transferAttrs : EdgeAttrs := ⟨none, none, true⟩

/-- Line RD runs A-B-C, direction 1 forward, no transfers. -/
def G3 : MGraph :=
  ⟨[rideE "A" "B" "RD" 1, rideE "B" "A" "RD" 2,
    rideE "B" "C" "RD" 1, rideE "C" "B" "RD" 2]⟩

/-- Lines RD and YL both serve A-B, only YL continues B-C. -/
def GRY : MGraph :=
  ⟨[rideE "A" "B" "RD" 1, rideE "A" "B" "YL" 1,
    rideE "B" "A" "RD" 2, rideE "B" "A" "YL" 2,
    rideE "B" "C" "YL" 1, rideE "C" "B" "YL" 2]⟩

/-- RD serves A-B and C-D (with intermediate RD stations off the path), GR
serves B-C: D is not reachable from A on RD inside the induced subgraph, but
D does have an incoming RD edge. -/
def G4 : MGraph :=
  ⟨[rideE "A" "B" "RD" 1, rideE "B" "A" "RD" 2,
    rideE "B" "C" "GR" 1, rideE "C" "B" "GR" 2,
    rideE "C" "D" "RD" 1, rideE "D" "C" "RD" 2]⟩

/-- The only A-B edge carries the synthetic line code YLRP, and the only
direction-1 edge with a real line code runs backwards into A. -/
def GY : MGraph := ⟨[rideE "A" "B" "YLRP" 1, rideE "B" "A" "RD" 1]⟩

/-- Parallel A-B edges that disagree on the direction number. -/
def GAmb : MGraph := ⟨[rideE "A" "B" "RD" 1, rideE "A" "B" "GR" 2]⟩

example : segmentFuel 8 G3 ["A", "B", "C"] =
    .ok [[⟨"A", "C", some 1, false⟩]] := by decide

example : segmentFuel 8 GRY ["A", "B", "C"] =
    .ok [[⟨"A", "B", some 1, false⟩, ⟨"B", "C", some 1, false⟩]] := by decide

example : segmentFuel 8 G4 ["A", "B", "C", "D"] =
    .ok [[⟨"A", "D", some 1, false⟩]] := by decide

example : segmentFuel 8 GY ["A", "B"] = .error .fuelOut := by decide

example : segmentFuel 8 GAmb ["A", "B"] =
    .error (.ambiguous "A" ["A", "B"]) := by decide

/-! ### `build_metro_network` -/

/-- One row of the `neighboring_stations` query: station adjacency with the
lag (`prev_stationcode`) and lead (`next_stationcode`) columns, per line. -/
structure NbrRow where
  linecode : String
  stationcode : String
  prev_stationcode : Option String
  next_stationcode : Option String
deriving DecidableEq, Repr

/-- One row of the `station_names` query. -/
structure NameRow where
  stationcode : String
  name : String
  lat : Int
  lon : Int
deriving DecidableEq, Repr

/-- `pd.melt(...)` with `id_vars=['linecode','stationcode']`, unpivoting the
`prev`/`next` columns into `(stationcode, dst_stationcode, linecode,
directionnum)` records with `prev -> 2` and `next -> 1`, followed by
`drop_duplicates()`. -/
def melted (nbrs : List NbrRow) : List (String × Option String × String × Nat) :=
  ((nbrs.map (fun (r : NbrRow) => (r.stationcode, r.prev_stationcode, r.linecode, 2))) ++
   (nbrs.map (fun (r : NbrRow) => (r.stationcode, r.next_stationcode, r.linecode, 1)))).dedup

/-- The directed route edges: melted records with a non-null destination,
tagged with their line code and direction number. -/
def routeDiEdges (nbrs : List NbrRow) : List MEdge :=
  (melted nbrs).filterMap (fun x =>
    match x with
    | (s, some d, lc, dn) => some (s, d, ⟨some lc, some dn, false⟩)
    | (_, none, _, _) => none)

/-- The directed transfer edges: one edge per `transfers` row, flagged
`station_transfer=True`, with no line code or direction. -/
def transferDiEdges (transfers : List (String × String)) : List MEdge :=
  transfers.map (fun p => (p.1, p.2, transferAttrs))

/-- The node set of an edge list (networkx adds both endpoints of every
edge). -/
def nodesOfEdges (es : List MEdge) : List String :=
  (es.map eSrc ++ es.map eDst).dedup

/-- The undirected graph `g`: nodes, edges (with the transfer flag), and the
`name`/`latlon` node decorations. -/
structure UGr where
  nodes : List String
  edges : List (String × String × Bool)
  names : List (String × String)
  latlon : List (String × (Int × Int))
deriving DecidableEq, Repr

/-- The directed multigraph `gDi` together with its node decorations. -/
structure DiGr where
  nodes : List String
  edges : List MEdge
  names : List (String × String)
  latlon : List (String × (Int × Int))
deriving DecidableEq, Repr

/-- `g.node[code]` raising `KeyError` when `code` is not a node. -/
inductive BuildError where
  | keyError (stationcode : String)
deriving DecidableEq, Repr

/-- The undirected edge list before decoration: adjacency rows with a
non-null lead, then the transfer rows flagged `station_transfer=True`. -/
def undirEdges0 (nbrs : List NbrRow) (transfers : List (String × String)) :
    List (String × String × Bool) :=
  nbrs.filterMap (fun r => r.next_stationcode.map (fun n => (r.stationcode, n, false))) ++
    transfers.map (fun p => (p.1, p.2, true))

/-- The node set of the undirected graph. -/
def undirNodes0 (nbrs : List NbrRow) (transfers : List (String × String)) :
    List String :=
  ((undirEdges0 nbrs transfers).map (fun e => e.1) ++
    (undirEdges0 nbrs transfers).map (fun e => e.2.1)).dedup

/-- The node set of the directed multigraph. -/
def diNodes0 (nbrs : List NbrRow) (transfers : List (String × String)) : List String :=
  nodesOfEdges (routeDiEdges nbrs ++ transferDiEdges transfers)

/-- The decoration loop `for (i, row) in dfNames.iterrows(): ...`: attach
`name` and `(lon, lat)` to the row's station in both graphs, failing with a
`KeyError` as soon as a row's station code is not a node. -/
def decorateAux : List NameRow → UGr → DiGr → Except BuildError (UGr × DiGr)
  | [], g, d => .ok (g, d)
  | r :: rs, g, d =>
    if r.stationcode ∈ g.nodes then
      if r.stationcode ∈ d.nodes then
        decorateAux rs
          { g with names := g.names ++ [(r.stationcode, r.name)],
                   latlon := g.latlon ++ [(r.stationcode, (r.lon, r.lat))] }
          { d with names := d.names ++ [(r.stationcode, r.name)],
                   latlon := d.latlon ++ [(r.stationcode, (r.lon, r.lat))] }
      else .error (.keyError r.stationcode)
    else .error (.keyError r.stationcode)

/-- `build_metro_network`: build the undirected graph, the directed
multigraph with route and transfer edges, then decorate every node named by
the station-metadata rows. -/
def build_metro_network (nbrs : List NbrRow) (names : List NameRow)
    (transfers : List (String × String)) : Except BuildError (UGr × DiGr) :=
  decorateAux names
    ⟨undirNodes0 nbrs transfers, undirEdges0 nbrs transfers, [], []⟩
    ⟨diNodes0 nbrs transfers, routeDiEdges nbrs ++ transferDiEdges transfers, [], []⟩

/-! ### `path_travel_times` and `_find_next_connection` -/

/-- `TRANSFER_TIME = pd.to_timedelta(1, unit='m')`, in minutes. -/
def TRANSFER_TIME : Int := 1

/-- The SQL sanity bound `'1 day'`, in minutes. -/
def oneDay : Int := 1440

/-- One row of the `transit_time` query: a departure event at `stationcode`
followed (for the same train, line and direction) by an arrival event at
`next_stationcode`. -/
structure HistRow where
  stationcode : String
  next_stationcode : String
  timestamp : Int
  next_timestamp : Int
deriving DecidableEq, Repr

/-- The historical transit-event source:
`get_travel_times(sDep, sArr, directionnum, dsn)` as a pure function. -/
def Source : Type := String → String → Option Nat → List HistRow

/-- One added station of a trip row: `s{i}dep` (departure from the previous
station), `s{i+1}` and `s{i+1}arr`.  `None` fields are pandas nulls. -/
structure Hop where
  dep : Option Int
  station : Option String
  arr : Option Int
deriving DecidableEq, Repr

/-- One row of `dfTrip`: the initial station `s0`, then one `Hop` per
processed leg (the seed hop carries `s0dep`, `s1`, `s1arr`). -/
structure Trip where
  s0 : String
  hops : List Hop
deriving DecidableEq, Repr

/-- The trip row's current arrival timestamp `s{i}arr`. -/
def lastArr (tr : Trip) : Option Int :=
  tr.hops.getLast?.bind (fun h => h.arr)

/-- First element of a row list attaining the minimal `timestamp`
(`idxmin` returns the first index of the minimum). -/
def minByTs : List HistRow → Option HistRow
  | [] => none
  | r :: rs =>
    match minByTs rs with
    | none => some r
    | some m => some (if m.timestamp < r.timestamp then m else r)

/-- `_find_next_connection`: among the leg's rows departing at or after the
trip's current arrival, the one with the earliest departure; `None` when the
feasible set is empty or the current arrival is already null. -/
def findNextConnection (rows : List HistRow) (curArr : Option Int) : Option HistRow :=
  match curArr with
  | none => none
  | some t => minByTs (rows.filter (fun r => decide (t ≤ r.timestamp)))

/-- The seed row built from one first-leg `transit_time` row:
`s0, s1, s0arr=None, s0dep, s1arr`. -/
def seedTrip (r : HistRow) : Trip :=
  ⟨r.stationcode, [⟨some r.timestamp, some r.next_stationcode, some r.next_timestamp⟩]⟩

/-- Processing of one leg `i >= 1` on one in-flight trip row: a transfer leg
appends the transfer hop; a ride leg joins the columns
`s{i+1}, s{i}dep, s{i+1}arr` of the first feasible connection, or nulls when
none exists. -/
def applyLeg (srcH : Source) (leg : Leg) (tr : Trip) : Trip :=
  if leg.station_transfer then
    { tr with hops := tr.hops ++
        [⟨lastArr tr, some leg.arrival_station, (lastArr tr).map (fun t => t + TRANSFER_TIME)⟩] }
  else
    match findNextConnection
        (srcH leg.departure_station leg.arrival_station leg.directionnum) (lastArr tr) with
    | some r => { tr with hops := tr.hops ++
        [⟨some r.timestamp, some r.next_stationcode, some r.next_timestamp⟩] }
    | none => { tr with hops := tr.hops ++ [⟨none, none, none⟩] }

/-- The ways `path_travel_times` fails on one leg list. -/
inductive JoinError where
  /-- a leg list starting with a transfer raises `NotImplementedError`. -/
  | notImplemented
  /-- an empty leg list leaves `dfTrip` undefined. -/
  | noLegs
deriving DecidableEq, Repr

/-- The per-straightshot body of `path_travel_times`: seed one trip row per
first-leg history row, then fold every later leg over all in-flight rows. -/
def reconstruct (srcH : Source) (legs : List Leg) : Except JoinError (List Trip) :=
  match legs with
  | [] => .error .noLegs
  | l0 :: rest =>
    if l0.station_transfer then .error .notImplemented
    else .ok (rest.foldl (fun trips leg => trips.map (applyLeg srcH leg))
      ((srcH l0.departure_station l0.arrival_station l0.directionnum).map seedTrip))

/-- `s0dep` of a trip row. -/
def firstDep (tr : Trip) : Option Int :=
  tr.hops.head?.bind (fun h => h.dep)

/-- `total_time = s{last}arr - s0dep` (null when either side is null). -/
def totalTime (tr : Trip) : Option Int :=
  match firstDep tr, lastArr tr with
  | some d, some a => some (a - d)
  | _, _ => none

/-- `x <= y` on nullable timestamps: pandas comparisons involving a null do
not flag a violation. -/
def optLE : Option Int → Option Int → Bool
  | some x, some y => decide (x ≤ y)
  | _, _ => true

/-- No negative-duration hop: departure at or before arrival. -/
def hopOk (h : Hop) : Bool := optLE h.dep h.arr

/-- Causal pair of consecutive hops: the connection departs at or after the
prior arrival, and arrivals do not decrease. -/
def pairOk (h1 h2 : Hop) : Bool := optLE h1.arr h2.dep && optLE h1.arr h2.arr

/-- `pairOk` along a hop list. -/
def chainOk : List Hop → Bool
  | h1 :: h2 :: rest => pairOk h1 h2 && chainOk (h2 :: rest)
  | _ => true

/-- Monotone timestamps along a trip row. -/
def monoB (tr : Trip) : Bool := tr.hops.all hopOk && chainOk tr.hops

/-- A trip row none of whose joined fields is null. -/
def completeB (tr : Trip) : Bool :=
  tr.hops.all (fun h => h.dep.isSome && h.station.isSome && h.arr.isSome)

/-- `[A -> B, B -> C]`, two ride legs in direction 1. -/
def legsABBC : List Leg :=
  [⟨"A", "B", some 1, false⟩, ⟨"B", "C", some 1, false⟩]

/-- Happy-path history: V1 departs A at 0, arrives B at 5; V2 departs B at 5,
arrives C at 12. -/
def srcHappy : Source := fun a b _ =>
  if a = "A" ∧ b = "B" then [⟨"A", "B", 0, 5⟩]
  else if a = "B" ∧ b = "C" then [⟨"B", "C", 5, 12⟩]
  else []

/-- Missed-connection history: the only B -> C vehicle departs at 3, before
the arrival at 5. -/
def srcMiss : Source := fun a b _ =>
  if a = "A" ∧ b = "B" then [⟨"A", "B", 0, 5⟩]
  else if a = "B" ∧ b = "C" then [⟨"B", "C", 3, 12⟩]
  else []

/-- Long-wait history: the connection departs 10000 minutes after the start;
each leg lasts well under a day but the whole trip lasts almost a week. -/
def srcLate : Source := fun a b _ =>
  if a = "A" ∧ b = "B" then [⟨"A", "B", 0, 5⟩]
  else if a = "B" ∧ b = "C" then [⟨"B", "C", 10000, 10010⟩]
  else []

example : reconstruct srcHappy legsABBC =
    .ok [⟨"A", [⟨some 0, some "B", some 5⟩, ⟨some 5, some "C", some 12⟩]⟩] := by decide

example : (reconstruct srcHappy legsABBC).map (fun l => l.map totalTime) =
    .ok [some 12] := by decide

example : reconstruct srcMiss legsABBC =
    .ok [⟨"A", [⟨some 0, some "B", some 5⟩, ⟨none, none, none⟩]⟩] := by decide

example : reconstruct srcLate legsABBC =
    .ok [⟨"A", [⟨some 0, some "B", some 5⟩, ⟨some 10000, some "C", some 10010⟩]⟩] := by
  decide

/-! ### Lemmas about `seqOpts` and `maxByIdx` -/

theorem seqOpts_eq_some {α : Type} :
    ∀ {os : List (Option α)} {xs : List α}, seqOpts os = some xs ↔ os = xs.map some
  | [], xs => by cases xs <;> simp [seqOpts]
  | none :: os, xs => by cases xs <;> simp [seqOpts]
  | some x :: os, xs => by
    cases xs with
    | nil =>
      simp only [seqOpts, List.map_nil, Option.map_eq_some']
      constructor
      · rintro ⟨ys, -, h⟩; cases h
      · intro h; cases h
    | cons y ys =>
      constructor
      · intro h
        simp only [seqOpts] at h
        cases hz : seqOpts os with
        | none => rw [hz] at h; cases h
        | some zs =>
          rw [hz] at h
          injection h with h
          injection h with h1 h2
          subst h1; subst h2
          simp [seqOpts_eq_some.mp hz]
      · intro h
        simp only [List.map_cons, List.cons.injEq, Option.some.injEq] at h
        obtain ⟨h1, h2⟩ := h
        subst h1
        simp only [seqOpts, seqOpts_eq_some.mpr h2, Option.map_some']

theorem maxByIdx_eq_none {p l} : maxByIdx p l = none ↔ l = [] := by
  cases l with
  | nil => simp [maxByIdx]
  | cons s ss =>
    simp only [maxByIdx]
    cases maxByIdx p ss <;> simp

theorem maxByIdx_mem {p : List String} : ∀ {l : List String} {m : String},
    maxByIdx p l = some m → m ∈ l
  | [], m => by simp [maxByIdx]
  | s :: ss, m => by
    simp only [maxByIdx]
    cases hrec : maxByIdx p ss with
    | none => intro h; injection h with h; simp [← h]
    | some m' =>
      intro h
      injection h with h
      split at h
      · exact h ▸ List.mem_cons_of_mem s (maxByIdx_mem hrec)
      · simp [← h]

theorem maxByIdx_le {p : List String} : ∀ {l : List String} {m : String},
    maxByIdx p l = some m → ∀ x ∈ l, p.indexOf x ≤ p.indexOf m
  | [], m => by simp [maxByIdx]
  | s :: ss, m => by
    simp only [maxByIdx]
    cases hrec : maxByIdx p ss with
    | none =>
      intro h x hx
      injection h with h
      rcases List.mem_cons.mp hx with hxs | hxss
      · rw [hxs, h]
      · rw [maxByIdx_eq_none.mp hrec] at hxss; cases hxss
    | some m' =>
      intro h x hx
      injection h with h
      rcases List.mem_cons.mp hx with hxs | hxss
      · subst hxs
        split at h
        · exact h ▸ le_of_lt (by assumption)
        · rw [← h]
      · have hle := maxByIdx_le hrec x hxss
        split at h
        · exact h ▸ hle
        · have : p.indexOf m' ≤ p.indexOf s := le_of_not_lt (by assumption)
          rw [← h]; exact le_trans hle this

/-! ### Inversion lemmas for `segStep` and `segmentFuel` -/

theorem segStep_base_iff {g : MGraph} {path : List String} :
    segStep g path = .base ↔ ∃ x, path = [x] := by
  constructor
  · intro h
    match path with
    | [] => simp [segStep] at h
    | [x] => exact ⟨x, rfl⟩
    | a :: b :: t =>
      simp only [segStep] at h
      split at h
      · cases h
      · split at h
        · cases h
        · split at h <;> try cases h
          split at h <;> try cases h
          split at h <;> try cases h
          split at h <;> cases h
  · rintro ⟨x, rfl⟩; rfl

theorem segStep_go_shape {g : MGraph} {path : List String} {leg : Leg} {idx : Nat}
    (h : segStep g path = .go leg idx) :
    (∃ b t, path = leg.departure_station :: b :: t) ∧
      leg.arrival_station ∈ path ∧ idx = path.indexOf leg.arrival_station := by
  match path with
  | [] => simp [segStep] at h
  | [x] => simp [segStep] at h
  | a :: b :: t =>
    simp only [segStep] at h
    split at h
    · cases h
    · split at h
      · injection h with h1 h2
        cases h1
        exact ⟨⟨b, t, rfl⟩, List.mem_cons_of_mem a (List.mem_cons_self b t), h2.symm⟩
      · split at h <;> try cases h
        split at h <;> try cases h
        split at h
        · cases h
        · rename_i dn hdn
          split at h
          · cases h
          · rename_i furthest hmax
            injection h with h1 h2
            cases h1
            refine ⟨⟨b, t, rfl⟩, ?_, h2.symm⟩
            have hmem := maxByIdx_mem hmax
            have h1 := (List.mem_filter.mp hmem).1
            have hmem2 := List.mem_dedup.mp h1
            rcases List.mem_map.mp hmem2 with ⟨e, he, hdst⟩
            have h3 := (List.mem_filter.mp he).1
            have h4 := List.mem_filter.mp h3
            simp only [Bool.and_eq_true, decide_eq_true_eq] at h4
            exact hdst ▸ h4.2.2
        · cases h

theorem segStep_ne_fail_fuelOut {g : MGraph} {path : List String} :
    segStep g path ≠ .fail .fuelOut := by
  intro h
  match path with
  | [] => simp [segStep] at h
  | [x] => simp [segStep] at h
  | a :: b :: t =>
    simp only [segStep] at h
    split at h
    · cases h
    · split at h
      · cases h
      · split at h <;> try cases h
        split at h <;> try cases h
        split at h
        · cases h
        · split at h <;> cases h
        · cases h

theorem no_progress_not_ok {g : MGraph} {path : List String} {leg : Leg}
    (hstep : segStep g path = .go leg 0) :
    ∀ (fuel : Nat) (v : List (List Leg)), segmentFuel fuel g path ≠ .ok v := by
  intro fuel
  induction fuel with
  | zero => intro v h; cases h
  | succ f ih =>
    intro v h
    simp only [segmentFuel, hstep, List.drop_zero] at h
    cases hin : segmentFuel f g path with
    | ok v' => exact ih v' hin
    | error e => rw [hin] at h; cases h

theorem segmentFuel_ok_inv {g : MGraph} {fuel : Nat} {path : List String}
    {decs : List (List Leg)} (h : segmentFuel fuel g path = .ok decs) :
    ∃ f', fuel = f' + 1 ∧
      ((segStep g path = .base ∧ decs = [[]]) ∨
        ∃ leg idx decs', segStep g path = .go leg idx ∧ 1 ≤ idx ∧
          segmentFuel f' g (path.drop idx) = .ok decs' ∧
          decs = decs'.map (fun d => leg :: d)) := by
  match fuel with
  | 0 => cases h
  | f + 1 =>
    refine ⟨f, rfl, ?_⟩
    have h0 := h
    cases hstep : segStep g path with
    | base =>
      simp only [segmentFuel, hstep] at h
      injection h with h
      exact .inl ⟨rfl, h.symm⟩
    | fail e =>
      simp only [segmentFuel, hstep] at h
      cases h
    | go leg idx =>
      simp only [segmentFuel, hstep] at h
      cases hin : segmentFuel f g (path.drop idx) with
      | ok decs' =>
        rw [hin] at h
        simp only [Except.map] at h
        injection h with h
        refine .inr ⟨leg, idx, decs', rfl, ?_, hin, h.symm⟩
        by_contra hidx
        have hz : idx = 0 := by omega
        exact no_progress_not_ok (hz ▸ hstep) (f + 1) decs h0
      | error e =>
        rw [hin] at h
        simp only [Except.map] at h
        cases h

/-! ### The station sequence spelled by a leg decomposition -/

/-- First leg's departure station followed by every leg's arrival station. -/
def stationsOf : List Leg → List String
  | [] => []
  | l :: ls => l.departure_station :: (l :: ls).map (fun x => x.arrival_station)

/-- Consecutive legs chain: each arrival station is the next departure. -/
def chainedB : List Leg → Bool
  | l1 :: l2 :: rest =>
    decide (l1.arrival_station = l2.departure_station) && chainedB (l2 :: rest)
  | _ => true

theorem getLast?_drop_of_ne_nil {α : Type} :
    ∀ {l : List α} {n : Nat}, l.drop n ≠ [] → (l.drop n).getLast? = l.getLast? := by
  intro l
  induction l with
  | nil => intro n h; simp at h
  | cons x xs ih =>
    intro n h
    cases n with
    | zero => rfl
    | succ m =>
      rw [List.drop_succ_cons] at h ⊢
      rw [ih h]
      cases xs with
      | nil => simp at h
      | cons y ys => exact (List.getLast?_cons_cons).symm

theorem drop_indexOf_cons {path : List String} {m : String} (h : m ∈ path) :
    path.drop (path.indexOf m) = m :: path.drop (path.indexOf m + 1) := by
  have hlt := List.indexOf_lt_length.mpr h
  rw [List.drop_eq_getElem_cons hlt, List.getElem_indexOf hlt]

theorem drop_sublist_tail {path : List String} {idx : Nat} (h : 1 ≤ idx) :
    (path.drop idx).Sublist (path.drop 1) := by
  have heq : path.drop idx = (path.drop 1).drop (idx - 1) := by
    rw [List.drop_drop]; congr 1; omega
  rw [heq]
  exact List.drop_sublist _ _

/-- Structure of every decomposition `segmentFuel` returns: the station
sequence is a sublist of the path sharing its first and last entries, and
consecutive legs chain. -/
theorem segmentFuel_stations {g : MGraph} :
    ∀ (fuel : Nat) (path : List String) (decs : List (List Leg)),
      segmentFuel fuel g path = .ok decs → ∀ dec ∈ decs,
        (path.length = 1 → dec = []) ∧
        (2 ≤ path.length →
          (stationsOf dec).Sublist path ∧ (stationsOf dec).head? = path.head? ∧
          (stationsOf dec).getLast? = path.getLast? ∧ chainedB dec = true) := by
  intro fuel
  induction fuel with
  | zero => intro path decs h; cases h
  | succ f ih =>
    intro path decs h dec hdec
    obtain ⟨f', hf, hcases⟩ := segmentFuel_ok_inv h
    have hf' : f' = f := by omega
    subst hf'
    rcases hcases with ⟨hbase, rfl⟩ | ⟨leg, idx, decs', hstep, hidx, hin, rfl⟩
    · obtain ⟨x, rfl⟩ := segStep_base_iff.mp hbase
      have hdec0 : dec = [] := by simpa using hdec
      subst hdec0
      exact ⟨fun _ => rfl, fun h2 => absurd h2 (by simp)⟩
    · rcases List.mem_map.mp hdec with ⟨dec', hdec', rfl⟩
      obtain ⟨⟨b, t, hpath⟩, hmem, hidxeq⟩ := segStep_go_shape hstep
      constructor
      · intro h1
        exfalso
        rw [hpath] at h1
        simp at h1
      · intro _
        have hdrop : path.drop idx = leg.arrival_station :: path.drop (idx + 1) :=
          hidxeq ▸ drop_indexOf_cons hmem

        have hne : path.drop idx ≠ [] := by rw [hdrop]; exact List.cons_ne_nil _ _
        have hlastEq : (path.drop idx).getLast? = path.getLast? :=
          getLast?_drop_of_ne_nil hne
        have hsubtail : (path.drop idx).Sublist (path.drop 1) := drop_sublist_tail hidx
        have htail1 : path.drop 1 = b :: t := by rw [hpath]; rfl
        have ihall := ih (path.drop idx) decs' hin dec' hdec'
        rcases Nat.lt_or_ge (path.drop idx).length 2 with hlen | hlen
        · -- the suffix is a single station: dec' = []
          have hl := congrArg List.length hdrop
          simp only [List.length_cons] at hl
          have hnil : path.drop (idx + 1) = [] := by
            have h0 : (path.drop (idx + 1)).length = 0 := by omega
            exact List.eq_nil_of_length_eq_zero h0
          have hsingle : path.drop idx = [leg.arrival_station] := by rw [hdrop, hnil]
          have hdec'0 : dec' = [] := ihall.1 (by rw [hsingle]; rfl)
          subst hdec'0
          have hAmem : leg.arrival_station ∈ b :: t := by
            have : leg.arrival_station ∈ path.drop idx := by
              rw [hdrop]; exact List.mem_cons_self _ _
            exact htail1 ▸ hsubtail.subset this
          refine ⟨?_, ?_, ?_, rfl⟩
          · rw [hpath]
            exact (List.singleton_sublist.mpr hAmem).cons₂ leg.departure_station
          · rw [hpath]; rfl
          · rw [← hlastEq, hsingle]; rfl
        · -- the suffix still has at least two stations
          obtain ⟨hsub', hhead', hlast', hchain'⟩ := ihall.2 hlen
          have hheadA : (path.drop idx).head? = some leg.arrival_station := by
            rw [hdrop]; rfl
          -- dec' is nonempty and starts at the arrival station
          cases hdc : dec' with
          | nil =>
            rw [hdc] at hhead'
            rw [hheadA] at hhead'
            cases hhead'
          | cons l' ls' =>
            rw [hdc] at hhead' hsub' hlast' hchain'
            have hdepA : l'.departure_station = leg.arrival_station := by
              rw [hheadA] at hhead'
              simpa [stationsOf] using hhead'
            have hstEq : stationsOf (leg :: l' :: ls') =
                leg.departure_station :: stationsOf (l' :: ls') := by
              simp [stationsOf, hdepA]
            refine ⟨?_, ?_, ?_, ?_⟩
            · rw [hstEq, hpath]
              refine List.Sublist.cons₂ _ ?_
              have : (stationsOf (l' :: ls')).Sublist (path.drop 1) :=
                hsub'.trans hsubtail
              rwa [htail1] at this
            · rw [hstEq, hpath]; rfl
            · rw [hstEq]
              have hne' : stationsOf (l' :: ls') ≠ [] := by simp [stationsOf]
              cases hst : stationsOf (l' :: ls') with
              | nil => exact absurd hst hne'
              | cons s srest =>
                rw [hst] at hlast'
                rw [List.getLast?_cons_cons]
                rw [hlast', hlastEq]
            · simp only [chainedB, hdepA, decide_eq_true_eq, Bool.and_eq_true]
              exact ⟨by trivial, hchain'⟩

/-! ### Where the ambiguous-direction error can come from -/

theorem seqOpts_ne_none {α : Type} {os : List (Option α)}
    (h : ∀ o ∈ os, o.isSome) : seqOpts os ≠ none := by
  induction os with
  | nil => simp [seqOpts]
  | cons o os ih =>
    cases o with
    | none => exact absurd (h none (List.mem_cons_self _ _)) (by simp)
    | some x =>
      simp only [seqOpts, ne_eq, Option.map_eq_none']
      exact ih (fun o ho => h o (List.mem_cons_of_mem _ ho))

/-- Any error a `segmentFuel` run reports, other than running out of fuel,
was produced by `segStep` on some suffix of the path. -/
theorem segmentFuel_error_inv {g : MGraph} :
    ∀ {f : Nat} {path : List String} {e : SegError},
      segmentFuel f g path = .error e →
      e = .fuelOut ∨ ∃ k, segStep g (path.drop k) = .fail e := by
  intro f
  induction f with
  | zero => intro path e h; injection h with h; exact .inl h.symm
  | succ f ih =>
    intro path e h
    cases hstep : segStep g path with
    | base => simp only [segmentFuel, hstep] at h; cases h
    | fail e' =>
      simp only [segmentFuel, hstep] at h
      injection h with h
      exact .inr ⟨0, by rw [List.drop_zero, hstep, h]⟩
    | go leg idx =>
      simp only [segmentFuel, hstep] at h
      cases hin : segmentFuel f g (path.drop idx) with
      | ok v =>
        rw [hin] at h
        simp only [Except.map] at h
        cases h
      | error e2 =>
        rw [hin] at h
        simp only [Except.map] at h
        injection h with h
        subst h
        rcases ih hin with h1 | ⟨k, hk⟩
        · exact .inl h1
        · exact .inr ⟨idx + k, by rw [← List.drop_drop]; exact hk⟩

/-- The ambiguity failure of `segStep` always names its own path, and is only
reported when the first hop's edges really disagree on the direction. -/
theorem segStep_amb_inv {g : MGraph} {p : List String} {s : String} {q : List String}
    (h : segStep g p = .fail (.ambiguous s q)) :
    q = p ∧ ∃ a b t, p = a :: b :: t ∧ s = a ∧
      ∃ ea1 ∈ hopAttrs (inducedEdges g p) a b,
        ∃ ea2 ∈ hopAttrs (inducedEdges g p) a b,
          ea1.directionnum ≠ ea2.directionnum := by
  match p with
  | [] => simp [segStep] at h
  | [x] => simp [segStep] at h
  | a :: b :: t =>
    simp only [segStep] at h
    split at h
    · simp at h
    · split at h
      · simp at h
      · split at h
        · simp at h
        · rename_i lcsRaw hlcs
          split at h
          · simp at h
          · rename_i dnsRaw hdns
            split at h
            · simp at h
            · split at h <;> simp at h
            · rename_i d1 d2 rest heq
              injection h with h
              injection h with h1 h2
              refine ⟨h2.symm, a, b, t, rfl, h1.symm, ?_⟩
              have hnodup := List.nodup_dedup dnsRaw
              rw [heq] at hnodup
              have hd12 : d1 ≠ d2 := by
                intro hcon
                exact (List.nodup_cons.mp hnodup).1 (hcon ▸ List.mem_cons_self _ _)
              have hmap := seqOpts_eq_some.mp hdns
              have h1mem : some d1 ∈ (hopAttrs (inducedEdges g (a :: b :: t)) a b).map
                  (fun ea => ea.directionnum) := by
                rw [hmap]
                exact List.mem_map_of_mem _ (List.mem_dedup.mp (heq ▸ List.mem_cons_self _ _))
              have h2mem : some d2 ∈ (hopAttrs (inducedEdges g (a :: b :: t)) a b).map
                  (fun ea => ea.directionnum) := by
                rw [hmap]
                exact List.mem_map_of_mem _ (List.mem_dedup.mp
                  (heq ▸ List.mem_cons_of_mem _ (List.mem_cons_self _ _)))
              rcases List.mem_map.mp h1mem with ⟨ea1, he1, hd1⟩
              rcases List.mem_map.mp h2mem with ⟨ea2, he2, hd2⟩
              refine ⟨ea1, he1, ea2, he2, ?_⟩
              rw [hd1, hd2]
              intro hcon
              injection hcon with hcon
              exact hd12 hcon

/-- When the first hop is transfer-free with well-formed attributes and its
edges disagree on the direction number, `segStep` reports the ambiguity. -/
theorem segStep_amb_eq {g : MGraph} {a b : String} {t : List String}
    (hwf : ∀ ea ∈ hopAttrs (inducedEdges g (a :: b :: t)) a b,
      ea.station_transfer = false ∧ ea.linecode.isSome ∧ ea.directionnum.isSome)
    (hne : hopAttrs (inducedEdges g (a :: b :: t)) a b ≠ [])
    (hdiff : ∃ ea1 ∈ hopAttrs (inducedEdges g (a :: b :: t)) a b,
      ∃ ea2 ∈ hopAttrs (inducedEdges g (a :: b :: t)) a b,
        ea1.directionnum ≠ ea2.directionnum) :
    segStep g (a :: b :: t) = .fail (.ambiguous a (a :: b :: t)) := by
  simp only [segStep]
  split
  · exact absurd (by assumption) hne
  · split
    · rename_i hany
      rw [List.any_eq_true] at hany
      rcases hany with ⟨ea, hea, htr⟩
      exact absurd ((hwf ea hea).1) (by simp [htr])
    · split
      · rename_i hnone
        exact absurd hnone (seqOpts_ne_none (by
          intro o ho
          rcases List.mem_map.mp ho with ⟨ea, hea, rfl⟩
          exact (hwf ea hea).2.1))
      · split
        · rename_i hnone
          exact absurd hnone (seqOpts_ne_none (by
            intro o ho
            rcases List.mem_map.mp ho with ⟨ea, hea, rfl⟩
            exact (hwf ea hea).2.2))
        · rename_i dnsRaw hdns
          rcases hdiff with ⟨ea1, he1, ea2, he2, hdd⟩
          have hmap := seqOpts_eq_some.mp hdns
          obtain ⟨d1, hd1⟩ := Option.isSome_iff_exists.mp (hwf ea1 he1).2.2
          obtain ⟨d2, hd2⟩ := Option.isSome_iff_exists.mp (hwf ea2 he2).2.2
          have h1mem : d1 ∈ dnsRaw := by
            have : some d1 ∈ dnsRaw.map some := by
              rw [← hmap, ← hd1]
              exact List.mem_map_of_mem _ he1
            rcases List.mem_map.mp this with ⟨x, hx, hxe⟩
            injection hxe with hxe
            exact hxe ▸ hx
          have h2mem : d2 ∈ dnsRaw := by
            have : some d2 ∈ dnsRaw.map some := by
              rw [← hmap, ← hd2]
              exact List.mem_map_of_mem _ he2
            rcases List.mem_map.mp this with ⟨x, hx, hxe⟩
            injection hxe with hxe
            exact hxe ▸ hx
          have hd12 : d1 ≠ d2 := by
            intro hcon
            exact hdd (by rw [hd1, hd2, hcon])
          split
          · rename_i hded
            rw [← List.mem_dedup (a := d1)] at h1mem
            rw [hded] at h1mem
            cases h1mem
          · rename_i dn hded
            rw [← List.mem_dedup (a := d1)] at h1mem
            rw [← List.mem_dedup (a := d2)] at h2mem
            rw [hded] at h1mem h2mem
            simp at h1mem h2mem
            exact absurd (h1mem.trans h2mem.symm) hd12
          · rfl

/-! ### Progress and halting of the segmentation recursion -/

/-- Inside the induced subgraph of a path that contains both endpoints, the
first-hop edge set is the full multigraph's. -/
theorem hopAttrs_induced {g : MGraph} {path : List String} {a b : String}
    (ha : a ∈ path) (hb : b ∈ path) :
    hopAttrs (inducedEdges g path) a b = hopAttrs g.edges a b := by
  unfold hopAttrs hopEdges inducedEdges
  rw [List.filter_filter]
  congr 1
  apply List.filter_congr
  intro e _
  by_cases h1 : eSrc e = a
  · by_cases h2 : eDst e = b
    · simp [h1, h2, ha, hb]
    · simp [h2]
  · simp [h1]

/-- The side condition making the first-hop station `b` survive the kept-set
filter: if the hop is transfer-free, at least one of its parallel edges
carries a real (non-YLRP) line code. -/
def hopOK (g : MGraph) (a b : String) : Prop :=
  (hopAttrsAll g a b ≠ [] ∧ ∀ ea ∈ hopAttrsAll g a b, ea.station_transfer = false) →
  ∃ ea ∈ hopAttrsAll g a b, ea.linecode.isSome ∧ ea.linecode ≠ some "YLRP"

instance (g : MGraph) (a b : String) : Decidable (hopOK g a b) :=
  inferInstanceAs (Decidable
    ((hopAttrsAll g a b ≠ [] ∧
        ∀ ea ∈ hopAttrsAll g a b, ea.station_transfer = false) →
      ∃ ea ∈ hopAttrsAll g a b, ea.linecode.isSome ∧ ea.linecode ≠ some "YLRP"))

/-- Under the ride-branch hypotheses, `path[1]` is a member of the kept
reachable set. -/
theorem mem_keptNodes_self {g : MGraph} {path : List String} {a b : String}
    {t : List String} (hpath : path = a :: b :: t) {dn : Nat} {lcsRaw : List String}
    (hlcs : seqOpts ((hopAttrs (inducedEdges g path) a b).map
      (fun ea => ea.linecode)) = some lcsRaw)
    (hdns : ∀ ea ∈ hopAttrs (inducedEdges g path) a b, ea.directionnum = some dn)
    (hwit : ∃ ea ∈ hopAttrs (inducedEdges g path) a b,
      ea.linecode.isSome ∧ ea.linecode ≠ some "YLRP") :
    b ∈ keptNodes g path dn (lineCodesOf lcsRaw) := by
  have hamem : a ∈ path := by rw [hpath]; exact List.mem_cons_self _ _
  have hbmem : b ∈ path := by
    rw [hpath]; exact List.mem_cons_of_mem _ (List.mem_cons_self _ _)
  -- the witness edge shows b is a target of a qualifying edge
  rcases hwit with ⟨ea, hea, heaSome, heaNe⟩
  rcases List.mem_map.mp hea with ⟨e, he, heq⟩
  have heInduced : e ∈ inducedEdges g path := List.mem_of_mem_filter he
  have heHop := List.mem_filter.mp he
  simp only [Bool.and_eq_true, decide_eq_true_eq] at heHop
  have heQual : e ∈ qualEdges g path dn := by
    apply List.mem_filter.mpr
    refine ⟨heInduced, ?_⟩
    simp only [Bool.and_eq_true, decide_eq_true_eq]
    exact ⟨heq ▸ hdns ea hea, by rw [heq]; exact heaNe⟩
  apply List.mem_filter.mpr
  constructor
  · exact List.mem_dedup.mpr (List.mem_map.mpr ⟨e, heQual, heHop.2.2⟩)
  · rw [List.all_eq_true]
    intro lc hlc
    have hlc' := hlc
    simp only [lineCodesOf] at hlc'
    have hlcRaw : lc ∈ lcsRaw := List.mem_dedup.mp (List.mem_of_mem_filter hlc')
    have hlcNe : lc ≠ "YLRP" := by
      have := List.of_mem_filter hlc'
      simpa using this
    -- some lc occurs among the first-hop line codes
    have hmap := seqOpts_eq_some.mp hlcs
    have hsome : some lc ∈ (hopAttrs (inducedEdges g path) a b).map
        (fun x => x.linecode) := by
      rw [hmap]
      exact List.mem_map_of_mem _ hlcRaw
    rcases List.mem_map.mp hsome with ⟨ea', hea', hlceq⟩
    rcases List.mem_map.mp hea' with ⟨e', he', heq'⟩
    have he'Hop := List.mem_filter.mp he'
    simp only [Bool.and_eq_true, decide_eq_true_eq] at he'Hop
    have he'Qual : e' ∈ qualEdges g path dn := by
      apply List.mem_filter.mpr
      refine ⟨List.mem_of_mem_filter he', ?_⟩
      simp only [Bool.and_eq_true, decide_eq_true_eq]
      refine ⟨heq' ▸ hdns ea' hea', ?_⟩
      rw [heq', hlceq]
      simp [hlcNe]
    rw [decide_eq_true_eq]
    apply List.mem_map.mpr
    refine ⟨e', List.mem_filter.mpr ⟨he'Qual, by simp [he'Hop.2.2]⟩, ?_⟩
    rw [heq', hlceq]

/-- On a duplicate-free path whose first hop satisfies `hopOK`, any leg
`segStep` emits cuts the path at a position at least 1. -/
theorem segStep_go_progress {g : MGraph} {path : List String} {a b : String}
    {t : List String} (hpath : path = a :: b :: t) (hnd : path.Nodup)
    (hok : hopOK g a b) {leg : Leg} {idx : Nat}
    (h : segStep g path = .go leg idx) : 1 ≤ idx := by
  have hab : a ≠ b := by
    rw [hpath] at hnd
    intro hcon
    exact (List.nodup_cons.mp hnd).1 (hcon ▸ List.mem_cons_self _ _)
  have hamem : a ∈ path := by rw [hpath]; exact List.mem_cons_self _ _
  have hbmem : b ∈ path := by
    rw [hpath]; exact List.mem_cons_of_mem _ (List.mem_cons_self _ _)
  have hidxb : path.indexOf b = 1 := by
    rw [hpath, List.indexOf_cons_ne _ (hab), List.indexOf_cons_self]
  subst hpath
  simp only [segStep] at h
  split at h
  · cases h
  · split at h
    · injection h with h1 h2
      omega
    · split at h
      · cases h
      · rename_i lcsRaw hlcs
        split at h
        · cases h
        · rename_i dnsRaw hdns
          split at h
          · cases h
          · rename_i dn hded
            split at h
            · cases h
            · rename_i furthest hmax
              injection h with h1 h2
              -- idx = indexOf furthest >= indexOf b = 1
              have hdnall : ∀ ea ∈ hopAttrs (inducedEdges g (a :: b :: t)) a b,
                  ea.directionnum = some dn := by
                intro ea hea
                have hsm : ea.directionnum ∈ dnsRaw.map some := by
                  rw [← seqOpts_eq_some.mp hdns]
                  exact List.mem_map_of_mem _ hea
                rcases List.mem_map.mp hsm with ⟨d, hd, hde⟩
                have : d ∈ dnsRaw.dedup := List.mem_dedup.mpr hd
                rw [hded] at this
                simp at this
                rw [← hde, this]
              have hEne : hopAttrs (inducedEdges g (a :: b :: t)) a b ≠ [] := by
                assumption
              have hTall : ∀ ea ∈ hopAttrs (inducedEdges g (a :: b :: t)) a b,
                  ea.station_transfer = false := by
                rename_i hany _ _ _ _
                intro ea hea
                by_contra hcon
                have : (hopAttrs (inducedEdges g (a :: b :: t)) a b).any
                    (fun ea => ea.station_transfer) = true := by
                  rw [List.any_eq_true]
                  exact ⟨ea, hea, by simpa using hcon⟩
                exact hany this
              have hEq := hopAttrs_induced (g := g) hamem hbmem
              have hwit := hok (by
                unfold hopAttrsAll
                rw [← hEq]
                exact ⟨hEne, hTall⟩)
              unfold hopAttrsAll at hwit
              rw [← hEq] at hwit
              have hbkept := mem_keptNodes_self rfl hlcs hdnall hwit
              have := maxByIdx_le hmax b hbkept
              rw [hidxb] at this
              omega
          · cases h

/-- `hopOK` holding along every consecutive pair of the path. -/
def chainHops (g : MGraph) : List String → Prop
  | a :: b :: rest => hopOK g a b ∧ chainHops g (b :: rest)
  | _ => True

instance instDecChainHops (g : MGraph) : (l : List String) → Decidable (chainHops g l)
  | [] => inferInstanceAs (Decidable True)
  | [_] => inferInstanceAs (Decidable True)
  | a :: b :: rest =>
    haveI := instDecChainHops g (b :: rest)
    inferInstanceAs (Decidable (hopOK g a b ∧ chainHops g (b :: rest)))

theorem chainHops_tail {g : MGraph} :
    ∀ {l : List String}, chainHops g l → chainHops g l.tail
  | [], _ => trivial
  | [_], _ => trivial
  | _ :: _ :: _, h => h.2

theorem chainHops_drop {g : MGraph} :
    ∀ (n : Nat) {l : List String}, chainHops g l → chainHops g (l.drop n)
  | 0, _, h => h
  | n + 1, [], h => by simpa using h
  | n + 1, _ :: _, h => by
    rw [List.drop_succ_cons]
    exact chainHops_drop n (chainHops_tail h)

/-- On a duplicate-free path all of whose consecutive hops satisfy `hopOK`,
the segmentation recursion reaches a base case (or a real error) within
`path.length + 1` calls: it never runs out of fuel. -/
theorem segment_halts {g : MGraph} :
    ∀ (fuel : Nat) (path : List String), path.length < fuel →
      path.Nodup → chainHops g path →
      segmentFuel fuel g path ≠ .error .fuelOut := by
  intro fuel
  induction fuel with
  | zero => intro path h; omega
  | succ f ih =>
    intro path hlen hnd hchain hcon
    cases hstep : segStep g path with
    | base =>
      simp only [segmentFuel, hstep] at hcon
      cases hcon
    | fail e =>
      simp only [segmentFuel, hstep] at hcon
      injection hcon with hcon
      exact segStep_ne_fail_fuelOut (hcon ▸ hstep)
    | go leg idx =>
      simp only [segmentFuel, hstep] at hcon
      cases hin : segmentFuel f g (path.drop idx) with
      | ok v => rw [hin] at hcon; simp [Except.map] at hcon
      | error e2 =>
        rw [hin] at hcon
        simp only [Except.map] at hcon
        injection hcon with hcon
        subst hcon
        obtain ⟨⟨b, t, hpath⟩, hmem, hidxeq⟩ := segStep_go_shape hstep
        have hokhead : hopOK g leg.departure_station b := by
          rw [hpath] at hchain
          exact hchain.1
        have hidx1 : 1 ≤ idx := segStep_go_progress hpath hnd hokhead hstep
        refine ih (path.drop idx) ?_ (hnd.sublist (List.drop_sublist idx path))
          (chainHops_drop idx hchain) hin
        have hplen : 2 ≤ path.length := by rw [hpath]; simp
        rw [List.length_drop]
        omega

/-! ### Lemmas about the causal join -/

theorem minByTs_eq_none {l : List HistRow} : minByTs l = none ↔ l = [] := by
  cases l with
  | nil => simp [minByTs]
  | cons x xs =>
    simp only [minByTs]
    cases minByTs xs <;> simp

theorem minByTs_spec : ∀ {l : List HistRow} {r : HistRow}, minByTs l = some r →
    r ∈ l ∧ ∀ x ∈ l, r.timestamp ≤ x.timestamp := by
  intro l
  induction l with
  | nil => intro r h; cases h
  | cons x xs ih =>
    intro r h
    simp only [minByTs] at h
    cases hrec : minByTs xs with
    | none =>
      rw [hrec] at h
      injection h with h
      subst h
      have hxs : xs = [] := minByTs_eq_none.mp hrec
      subst hxs
      refine ⟨List.mem_singleton_self _, ?_⟩
      intro z hz
      simp only [List.mem_singleton] at hz
      rw [hz]
    | some m =>
      rw [hrec] at h
      injection h with h
      obtain ⟨hm, hle⟩ := ih hrec
      split at h
      · subst h
        refine ⟨List.mem_cons_of_mem _ hm, ?_⟩
        intro z hz
        rcases List.mem_cons.mp hz with hzx | hzxs
        · exact hzx ▸ le_of_lt (by assumption)
        · exact hle z hzxs
      · subst h
        refine ⟨List.mem_cons_self _ _, ?_⟩
        intro z hz
        rcases List.mem_cons.mp hz with hzx | hzxs
        · rw [hzx]
        · exact le_trans (le_of_not_lt (by assumption)) (hle z hzxs)

theorem findNextConnection_spec {rows : List HistRow} {t : Int} {r : HistRow}
    (h : findNextConnection rows (some t) = some r) :
    r ∈ rows ∧ t ≤ r.timestamp ∧
      ∀ x ∈ rows, t ≤ x.timestamp → r.timestamp ≤ x.timestamp := by
  simp only [findNextConnection] at h
  obtain ⟨hm, hle⟩ := minByTs_spec h
  have hmem := List.mem_filter.mp hm
  refine ⟨hmem.1, by simpa using hmem.2, ?_⟩
  intro x hx hxt
  exact hle x (List.mem_filter.mpr ⟨hx, by simpa using hxt⟩)

theorem optLE_refl (x : Option Int) : optLE x x = true := by
  cases x <;> simp [optLE]

theorem chainOk_concat : ∀ {hops : List Hop} {h : Hop}, chainOk hops = true →
    (∀ hl, hops.getLast? = some hl → pairOk hl h = true) →
    chainOk (hops ++ [h]) = true := by
  intro hops
  induction hops with
  | nil => intro h _ _; rfl
  | cons x xs ih =>
    intro h hchain hlast
    cases xs with
    | nil =>
      show (pairOk x h && chainOk [h]) = true
      rw [hlast x rfl]
      rfl
    | cons y ys =>
      show (pairOk x y && chainOk ((y :: ys) ++ [h])) = true
      simp only [chainOk, Bool.and_eq_true] at hchain
      rw [Bool.and_eq_true]
      refine ⟨hchain.1, ?_⟩
      refine ih hchain.2 ?_
      intro hl hhl
      refine hlast hl ?_
      rw [List.getLast?_cons_cons]
      exact hhl

/-- The in-flight trip-row invariant of the causal join. -/
def TripInv (tr : Trip) : Prop := tr.hops ≠ [] ∧ monoB tr = true

theorem lastArr_of_getLast {tr : Trip} {hl : Hop} (h : tr.hops.getLast? = some hl) :
    lastArr tr = hl.arr := by
  simp only [lastArr, h, Option.bind_eq_bind, Option.some_bind]

theorem monoB_append {tr : Trip} {h : Hop} (hmono : monoB tr = true)
    (hhop : hopOk h = true)
    (hpair : ∀ hl, tr.hops.getLast? = some hl → pairOk hl h = true) :
    monoB ⟨tr.s0, tr.hops ++ [h]⟩ = true := by
  simp only [monoB, Bool.and_eq_true] at hmono ⊢
  constructor
  · rw [List.all_append]
    simp only [Bool.and_eq_true]
    exact ⟨hmono.1, by simp [List.all_cons, hhop]⟩
  · exact chainOk_concat hmono.2 hpair

theorem applyLeg_inv {srcH : Source} {leg : Leg} {tr : Trip}
    (hsrc : ∀ a b d r, r ∈ srcH a b d → r.timestamp ≤ r.next_timestamp)
    (hinv : TripInv tr) : TripInv (applyLeg srcH leg tr) := by
  obtain ⟨hne, hmono⟩ := hinv
  obtain ⟨hl, hgl⟩ := Option.isSome_iff_exists.mp
    (Option.isSome_iff_ne_none.mpr (mt List.getLast?_eq_none_iff.mp hne))
  have hlarr := lastArr_of_getLast hgl
  unfold applyLeg
  split
  · -- transfer leg
    refine ⟨by simp, ?_⟩
    apply monoB_append hmono
    · simp only [hopOk]
      cases hv : lastArr tr <;> simp [optLE, TRANSFER_TIME]
    · intro hl' hhl'
      rw [hgl] at hhl'
      injection hhl' with hhl'
      subst hhl'
      simp only [pairOk, Bool.and_eq_true, ← hlarr]
      constructor
      · exact optLE_refl _
      · cases hv : lastArr tr <;> simp [optLE, TRANSFER_TIME]
  · -- ride leg
    split
    · rename_i r hfind
      -- the connection is feasible
      cases hv : lastArr tr with
      | none => rw [hv] at hfind; cases hfind
      | some t =>
        rw [hv] at hfind
        obtain ⟨hmemr, htle, -⟩ := findNextConnection_spec hfind
        have hrow := hsrc _ _ _ _ hmemr
        refine ⟨by simp, ?_⟩
        apply monoB_append hmono
        · simp [hopOk, optLE, hrow]
        · intro hl' hhl'
          rw [hgl] at hhl'
          injection hhl' with hhl'
          subst hhl'
          have harr : hl.arr = some t := hlarr.symm.trans hv
          simp only [pairOk, Bool.and_eq_true, harr, optLE, decide_eq_true_eq]
          exact ⟨htle, le_trans htle hrow⟩
    · refine ⟨by simp, ?_⟩
      apply monoB_append hmono
      · rfl
      · intro hl' _
        simp [pairOk, optLE]

/-- Preservation of an arbitrary trip-row property under the leg fold. -/
theorem foldl_apply_pres {srcH : Source} {P : Trip → Prop}
    (hstep : ∀ leg tr, P tr → P (applyLeg srcH leg tr)) :
    ∀ (legs : List Leg) (trips : List Trip), (∀ tr ∈ trips, P tr) →
      ∀ tr ∈ legs.foldl (fun trips leg => trips.map (applyLeg srcH leg)) trips,
        P tr := by
  intro legs
  induction legs with
  | nil => intro trips h tr htr; exact h tr htr
  | cons leg rest ih =>
    intro trips h tr htr
    refine ih (trips.map (applyLeg srcH leg)) ?_ tr htr
    intro tr' htr'
    rcases List.mem_map.mp htr' with ⟨tr0, htr0, rfl⟩
    exact hstep leg tr0 (h tr0 htr0)

theorem foldl_apply_inv {srcH : Source}
    (hsrc : ∀ a b d r, r ∈ srcH a b d → r.timestamp ≤ r.next_timestamp) :
    ∀ (legs : List Leg) (trips : List Trip), (∀ tr ∈ trips, TripInv tr) →
      ∀ tr ∈ legs.foldl (fun trips leg => trips.map (applyLeg srcH leg)) trips,
        TripInv tr := by
  intro legs
  induction legs with
  | nil => intro trips h tr htr; exact h tr htr
  | cons leg rest ih =>
    intro trips h tr htr
    refine ih (trips.map (applyLeg srcH leg)) ?_ tr htr
    intro tr' htr'
    rcases List.mem_map.mp htr' with ⟨tr0, htr0, rfl⟩
    exact applyLeg_inv hsrc (h tr0 htr0)

theorem seedTrip_inv {srcH : Source} {a b : String} {d : Option Nat} {r : HistRow}
    (hsrc : ∀ a b d r, r ∈ srcH a b d → r.timestamp ≤ r.next_timestamp)
    (hr : r ∈ srcH a b d) : TripInv (seedTrip r) := by
  refine ⟨by simp [seedTrip], ?_⟩
  simp only [seedTrip, monoB, chainOk, List.all_cons, List.all_nil, hopOk, optLE,
    Bool.and_eq_true, decide_eq_true_eq]
  refine ⟨⟨?_, by trivial⟩, by trivial⟩
  exact hsrc _ _ _ _ hr

theorem reconstruct_ok {srcH : Source} {legs : List Leg} {trips : List Trip}
    (h : reconstruct srcH legs = .ok trips) :
    ∃ l0 rest, legs = l0 :: rest ∧ l0.station_transfer = false ∧
      trips = rest.foldl (fun trips leg => trips.map (applyLeg srcH leg))
        ((srcH l0.departure_station l0.arrival_station l0.directionnum).map seedTrip) := by
  match legs with
  | [] => cases h
  | l0 :: rest =>
    simp only [reconstruct] at h
    split at h
    · cases h
    · injection h with h
      exact ⟨l0, rest, rfl, by simpa using (by assumption : ¬l0.station_transfer = true), h.symm⟩

theorem foldl_map_length {srcH : Source} :
    ∀ (legs : List Leg) (trips : List Trip),
      (legs.foldl (fun trips leg => trips.map (applyLeg srcH leg)) trips).length =
        trips.length := by
  intro legs
  induction legs with
  | nil => intro trips; rfl
  | cons leg rest ih =>
    intro trips
    rw [List.foldl_cons, ih, List.length_map]

/-- A ride leg with no feasible connection joins only nulls. -/
theorem applyLeg_none {srcH : Source} {leg : Leg} {tr : Trip}
    (hride : leg.station_transfer = false)
    (hnone : findNextConnection
      (srcH leg.departure_station leg.arrival_station leg.directionnum)
      (lastArr tr) = none) :
    applyLeg srcH leg tr = ⟨tr.s0, tr.hops ++ [⟨none, none, none⟩]⟩ := by
  unfold applyLeg
  rw [if_neg (by simp [hride]), hnone]

/-- Every (departure, arrival)-complete hop lasts less than one day. -/
def BoundInv (tr : Trip) : Prop :=
  ∀ h ∈ tr.hops, ∀ dv av, h.dep = some dv → h.arr = some av → av - dv < oneDay

theorem applyLeg_bound {srcH : Source} {leg : Leg} {tr : Trip}
    (hsrc : ∀ a b d r, r ∈ srcH a b d → r.next_timestamp - r.timestamp < oneDay)
    (hinv : BoundInv tr) : BoundInv (applyLeg srcH leg tr) := by
  unfold applyLeg
  split
  · intro h hmem dv av hdv hav
    rcases List.mem_append.mp hmem with hold | hnew
    · exact hinv h hold dv av hdv hav
    · simp only [List.mem_singleton] at hnew
      subst hnew
      simp only at hdv hav
      rw [hdv] at hav
      simp only [Option.map_some'] at hav
      injection hav with hav
      rw [← hav]
      simp [TRANSFER_TIME, oneDay]
  · split
    · rename_i r hfind
      intro h hmem dv av hdv hav
      rcases List.mem_append.mp hmem with hold | hnew
      · exact hinv h hold dv av hdv hav
      · simp only [List.mem_singleton] at hnew
        subst hnew
        simp only at hdv hav
        injection hdv with hdv
        injection hav with hav
        subst hdv; subst hav
        cases hv : lastArr tr with
        | none => rw [hv] at hfind; cases hfind
        | some t =>
          rw [hv] at hfind
          exact hsrc _ _ _ _ (findNextConnection_spec hfind).1
    · intro h hmem dv av hdv hav
      rcases List.mem_append.mp hmem with hold | hnew
      · exact hinv h hold dv av hdv hav
      · simp only [List.mem_singleton] at hnew
        subst hnew
        cases hdv

theorem seedTrip_bound {srcH : Source} {a b : String} {d : Option Nat} {r : HistRow}
    (hsrc : ∀ a b d r, r ∈ srcH a b d → r.next_timestamp - r.timestamp < oneDay)
    (hr : r ∈ srcH a b d) : BoundInv (seedTrip r) := by
  intro h hmem dv av hdv hav
  simp only [seedTrip, List.mem_singleton] at hmem
  subst hmem
  injection hdv with hdv
  injection hav with hav
  subst hdv; subst hav
  exact hsrc _ _ _ _ hr

/-- On a complete trip row, `total_time` is the final arrival minus the
initial departure. -/
theorem totalTime_eq {tr : Trip} (hne : tr.hops ≠ []) (hc : completeB tr = true) :
    ∃ dv av, firstDep tr = some dv ∧ lastArr tr = some av ∧
      totalTime tr = some (av - dv) := by
  simp only [completeB, List.all_eq_true, Bool.and_eq_true] at hc
  obtain ⟨h0, hops', hh⟩ := List.exists_cons_of_ne_nil hne
  obtain ⟨hl, hgl⟩ := Option.isSome_iff_exists.mp
    (Option.isSome_iff_ne_none.mpr (mt List.getLast?_eq_none_iff.mp hne))
  have h0mem : h0 ∈ tr.hops := by rw [hh]; exact List.mem_cons_self _ _
  have hlmem : hl ∈ tr.hops := by
    obtain ⟨hne', heq⟩ :=
      List.mem_getLast?_eq_getLast (Option.mem_def.mpr hgl)
    rw [heq]
    exact List.getLast_mem hne'
  obtain ⟨dv, hdv⟩ := Option.isSome_iff_exists.mp (hc h0 h0mem).1.1
  obtain ⟨av, hav⟩ := Option.isSome_iff_exists.mp (hc hl hlmem).2
  refine ⟨dv, av, ?_, ?_, ?_⟩
  · simp [firstDep, hh, hdv]
  · simp [lastArr, hgl, hav]
  · have hgl' : (h0 :: hops').getLast? = some hl := hh ▸ hgl
    simp [totalTime, firstDep, lastArr, hh, hgl', hdv, hav]

/-! ### Lemmas about `build_metro_network` -/

theorem decorateAux_parts : ∀ {rs : List NameRow} {g : UGr} {d : DiGr} {g' : UGr}
    {d' : DiGr}, decorateAux rs g d = .ok (g', d') →
    d'.edges = d.edges ∧ d'.nodes = d.nodes ∧ g'.nodes = g.nodes ∧
      g'.edges = g.edges := by
  intro rs
  induction rs with
  | nil =>
    intro g d g' d' h
    injection h with h
    injection h with h1 h2
    rw [← h1, ← h2]
    exact ⟨rfl, rfl, rfl, rfl⟩
  | cons r rs ih =>
    intro g d g' d' h
    simp only [decorateAux] at h
    split at h
    · split at h
      · have hparts := ih h
        exact hparts
      · cases h
    · cases h

theorem decorateAux_ok_iff : ∀ (rs : List NameRow) (g : UGr) (d : DiGr),
    (∃ gd, decorateAux rs g d = .ok gd) ↔
      ∀ r ∈ rs, r.stationcode ∈ g.nodes ∧ r.stationcode ∈ d.nodes := by
  intro rs
  induction rs with
  | nil => intro g d; simp [decorateAux]
  | cons r rs ih =>
    intro g d
    simp only [decorateAux]
    constructor
    · rintro ⟨gd, hgd⟩
      split at hgd
      · split at hgd
        · intro r' hr'
          rcases List.mem_cons.mp hr' with rfl | hmem
          · exact ⟨by assumption, by assumption⟩
          · exact (ih _ _).mp ⟨gd, hgd⟩ r' hmem
        · cases hgd
      · cases hgd
    · intro hall
      have h1 := (hall r (List.mem_cons_self _ _)).1
      have h2 := (hall r (List.mem_cons_self _ _)).2
      rw [if_pos h1, if_pos h2]
      exact (ih _ _).mpr (fun r' hr' => hall r' (List.mem_cons_of_mem _ hr'))

theorem build_ok_edges {nbrs : List NbrRow} {names : List NameRow}
    {transfers : List (String × String)} {g : UGr} {d : DiGr}
    (h : build_metro_network nbrs names transfers = .ok (g, d)) :
    d.edges = routeDiEdges nbrs ++ transferDiEdges transfers :=
  (decorateAux_parts h).1

/-- Every edge of the built multigraph is either a route edge (line code and
direction present, no transfer flag) or a transfer edge (flag set, no line
code or direction). -/
theorem build_edge_shapes {nbrs : List NbrRow} {names : List NameRow}
    {transfers : List (String × String)} {g : UGr} {d : DiGr}
    (h : build_metro_network nbrs names transfers = .ok (g, d)) :
    ∀ e ∈ d.edges,
      ((eAttr e).station_transfer = false ∧ (eAttr e).linecode.isSome ∧
        (eAttr e).directionnum.isSome) ∨
      ((eAttr e).station_transfer = true ∧ (eAttr e).linecode = none ∧
        (eAttr e).directionnum = none) := by
  intro e hmem
  rw [build_ok_edges h] at hmem
  rcases List.mem_append.mp hmem with hroute | htrans
  · left
    rcases List.mem_filterMap.mp hroute with ⟨x, -, hx⟩
    rcases x with ⟨s, dopt, lc, dn⟩
    cases dopt with
    | none => cases hx
    | some dst' =>
      injection hx with hx
      rw [← hx]
      exact ⟨rfl, rfl, rfl⟩
  · right
    rcases List.mem_map.mp htrans with ⟨p, -, hp⟩
    rw [← hp]
    exact ⟨rfl, rfl, rfl⟩

/-! ### Reachability as the specification words it -/

/-- One expansion step of reachability along a fixed edge set. -/
def reachStep (es : List MEdge) (cur : List String) : List String :=
  (cur ++ es.filterMap (fun e => if eSrc e ∈ cur then some (eDst e) else none)).dedup

/-- Modelled from the spec: "the set of line codes that offer a
`directionNum`-consistent path reaching `n` from `a`" over the induced
subgraph — `n` is reachable on line `lc` when a chain of edges of that line
and direction leads from the path head to `n`.  `path_to_straightshots`
replaces this transitive closure by a single scan over incoming edges. -/
def specReachOnLine (g : MGraph) (path : List String) (dn : Nat) (lc : String) :
    List String :=
  match path with
  | [] => []
  | a :: _ =>
    Nat.iterate
      (reachStep ((inducedEdges g path).filter (fun e =>
        decide ((eAttr e).linecode = some lc) &&
        decide ((eAttr e).directionnum = some dn))))
      path.length [a]

/-- Modelled from the spec: "Keep only nodes reachable via **every** code in
`lineCodes` (not merely some)". -/
def specKeptNodes (g : MGraph) (path : List String) (dn : Nat)
    (lineCodes : List String) : List String :=
  path.filter (fun n =>
    lineCodes.all (fun lc => decide (n ∈ specReachOnLine g path dn lc)))

/-! ### Claim theorems -/

/-- C1: on `G4` (line RD serves hops A-B and C-D but not B-C, which only GR
serves), the code's first leg for `[A,B,C,D]` runs through to D in one
straight shot, although the spec's rule — the furthest node reachable from A
by a direction-1 path on every line of the first hop (here `{RD}`) — selects
B: D has an incoming direction-1 RD edge but no RD path from A, so the
single-edge `reachable` scan of `path_to_straightshots` overshoots.  The
spec's own two-line scenario (A-B on `{RD,YL}`, B-C on YL only) does behave
as claimed, yielding the two legs A-B and B-C. -/
theorem c1_reachable_scan_not_transitive :
    segmentFuel 8 G4 ["A", "B", "C", "D"] =
      .ok [[⟨"A", "D", some 1, false⟩]] ∧
    maxByIdx ["A", "B", "C", "D"]
      (specKeptNodes G4 ["A", "B", "C", "D"] 1 ["RD"]) = some "B" ∧
    decide ("D" ∈ specKeptNodes G4 ["A", "B", "C", "D"] 1 ["RD"]) = false ∧
    segmentFuel 8 GRY ["A", "B", "C"] =
      .ok [[⟨"A", "B", some 1, false⟩, ⟨"B", "C", some 1, false⟩]] := by decide

/-- C4 counterexample: on the three-station red line, `segment` returns the
single leg A-C, and the station sequence it spells — first departure then
the arrivals — is `[A, C]`, not the original path `[A, B, C]`: the ridden-
through station B is skipped. -/
theorem c4_cex_station_sequence_skips_interior :
    segmentFuel 8 G3 ["A", "B", "C"] = .ok [[⟨"A", "C", some 1, false⟩]] ∧
    stationsOf [⟨"A", "C", some 1, false⟩] = ["A", "C"] ∧
    ((["A", "C"] : List String) == ["A", "B", "C"]) = false := by decide

/-- C4 (amended): for every decomposition `segment` returns on a path of
length at least 2, the sequence formed by the first leg's departure station
followed by each leg's arrival station is a sublist of the path (stations
appear in path order, none repeated, but interior stations of a leg are
skipped), it starts at `path[0]` and ends at `path[-1]`, and consecutive
legs chain (each arrival station is the next leg's departure station). -/
theorem c4_leg_stations_subsequence {g : MGraph} {fuel : Nat}
    {path : List String} {decs : List (List Leg)} {dec : List Leg}
    (hok : segmentFuel fuel g path = .ok decs) (hdec : dec ∈ decs)
    (hlen : 2 ≤ path.length) :
    (stationsOf dec).Sublist path ∧ (stationsOf dec).head? = path.head? ∧
      (stationsOf dec).getLast? = path.getLast? ∧ chainedB dec = true :=
  (segmentFuel_stations fuel path decs hok dec hdec).2 hlen

theorem c4_witness :
    (stationsOf [⟨"A", "C", some 1, false⟩]).Sublist ["A", "B", "C"] ∧
    (stationsOf [⟨"A", "C", some 1, false⟩]).head? =
      (["A", "B", "C"] : List String).head? ∧
    (stationsOf [⟨"A", "C", some 1, false⟩]).getLast? =
      (["A", "B", "C"] : List String).getLast? ∧
    chainedB [⟨"A", "C", some 1, false⟩] = true :=
  c4_leg_stations_subsequence
    (show segmentFuel 8 G3 ["A", "B", "C"] =
      .ok [[⟨"A", "C", some 1, false⟩]] by decide)
    (by decide) (by decide)

/-- C5: when the first hop of a path has (well-formed) non-transfer parallel
edges only, segmentation fails with the `ValueError` naming the station and
the path exactly when those edges carry more than one distinct direction
number; when they agree on the direction, that error — the one naming this
station and this full path — is never raised, whatever the fuel. -/
theorem c5_ambiguous_direction {g : MGraph} {a b : String} {t : List String}
    (hwf : ∀ ea ∈ hopAttrs (inducedEdges g (a :: b :: t)) a b,
      ea.station_transfer = false ∧ ea.linecode.isSome ∧ ea.directionnum.isSome)
    (hne : hopAttrs (inducedEdges g (a :: b :: t)) a b ≠ []) :
    ((∃ ea1 ∈ hopAttrs (inducedEdges g (a :: b :: t)) a b,
        ∃ ea2 ∈ hopAttrs (inducedEdges g (a :: b :: t)) a b,
          ea1.directionnum ≠ ea2.directionnum) →
      ∀ f, segmentFuel (f + 1) g (a :: b :: t) =
        .error (.ambiguous a (a :: b :: t))) ∧
    ((∀ ea1 ∈ hopAttrs (inducedEdges g (a :: b :: t)) a b,
        ∀ ea2 ∈ hopAttrs (inducedEdges g (a :: b :: t)) a b,
          ea1.directionnum = ea2.directionnum) →
      ∀ f, segmentFuel f g (a :: b :: t) ≠
        .error (.ambiguous a (a :: b :: t))) := by
  constructor
  · intro hdiff f
    have hstep := segStep_amb_eq hwf hne hdiff
    simp only [segmentFuel, hstep]
  · intro hsame f hcon
    rcases segmentFuel_error_inv hcon with h1 | ⟨k, hk⟩
    · cases h1
    · obtain ⟨hq, a', b', t', hp', hs', ea1, he1, ea2, he2, hnea⟩ :=
        segStep_amb_inv hk
      have hlen := congrArg List.length hq
      rw [List.length_drop] at hlen
      have hk0 : k = 0 := by
        simp only [List.length_cons] at hlen
        omega
      subst hk0
      rw [List.drop_zero] at hp' he1 he2
      obtain ⟨rfl, h2⟩ : a' = a ∧ (b' :: t' : List String) = b :: t := by
        have := hp'
        injection this with ha hbt
        exact ⟨ha.symm, hbt.symm⟩
      obtain ⟨rfl, rfl⟩ : b' = b ∧ t' = t := by
        injection h2 with hb ht
        exact ⟨hb, ht⟩
      exact hnea (hsame ea1 he1 ea2 he2)

theorem c5_witness :
    segmentFuel 1 GAmb ["A", "B"] = .error (.ambiguous "A" ["A", "B"]) ∧
    segmentFuel 9 G3 ["A", "B", "C"] ≠
      .error (.ambiguous "A" ["A", "B", "C"]) := by
  constructor
  · exact (c5_ambiguous_direction (by decide) (by decide)).1 (by decide) 0
  · exact (c5_ambiguous_direction (by decide) (by decide)).2 (by decide) 9

/-- The recursion keeps cutting the path at position 0 forever: every fuel
budget is exhausted. -/
def LoopsForever (g : MGraph) (path : List String) : Prop :=
  ∀ fuel, segmentFuel fuel g path = .error .fuelOut

/-- C10 counterexample: on `GY` the only A-B edge carries line YLRP, so the
first hop's line-code set is empty after the YLRP exclusion and B is not in
the kept reachable set (its one incoming edge is YLRP); the backwards
direction-1 edge into A makes A itself the furthest kept node, the recursion
cuts at position 0, and `segment` never terminates. -/
theorem c10_cex_ylrp_first_hop_loops : LoopsForever GY ["A", "B"] := by
  intro fuel
  induction fuel with
  | zero => rfl
  | succ f ih =>
    have hstep : segStep GY ["A", "B"] =
        .go ⟨"A", "A", some 1, false⟩ 0 := by decide
    simp only [segmentFuel, hstep, List.drop_zero, ih]
    rfl

/-- C10 (amended): on a duplicate-free path each of whose consecutive hops
either carries a transfer edge, carries no edge at all, or carries at least
one non-YLRP ride edge, the recursion halts — with fuel `path.length + 1` it
returns a result (a decomposition or a genuine error) rather than running
out of fuel.  The strictly-later-cut argument of the claim is sound exactly
when the first hop's line-code set stays non-empty after the YLRP
exclusion. -/
theorem c10_segment_terminates {g : MGraph} {path : List String}
    (hnd : path.Nodup) (hchain : chainHops g path) :
    ∃ fuel, segmentFuel fuel g path ≠ .error .fuelOut :=
  ⟨path.length + 1,
    segment_halts (path.length + 1) path (by omega) hnd hchain⟩

theorem c10_witness :
    ∃ fuel, segmentFuel fuel G3 ["A", "B", "C"] ≠ .error .fuelOut :=
  c10_segment_terminates (by decide) (by decide)

/-- C2: `_find_next_connection` returns exactly the earliest-departing series
entry at or after the current arrival (membership, feasibility, minimality),
and consequently — given that the historical source's rows respect
departure-before-arrival, as the ordered window of the `transit_time` query
guarantees — every trip row `reconstruct` outputs has monotone timestamps:
within each hop departure is at or before arrival, each connection departs
at or after the prior arrival, and arrivals never decrease. -/
theorem c2_causal_join_monotone :
    (∀ (rows : List HistRow) (t : Int) (r : HistRow),
        findNextConnection rows (some t) = some r →
        r ∈ rows ∧ t ≤ r.timestamp ∧
          ∀ x ∈ rows, t ≤ x.timestamp → r.timestamp ≤ x.timestamp) ∧
    (∀ (srcH : Source),
        (∀ a b d r, r ∈ srcH a b d → r.timestamp ≤ r.next_timestamp) →
        ∀ (legs : List Leg) (trips : List Trip) (tr : Trip),
          reconstruct srcH legs = .ok trips → tr ∈ trips →
          monoB tr = true) := by
  constructor
  · intro rows t r h
    exact findNextConnection_spec h
  · intro srcH hsrc legs trips tr hrec htr
    obtain ⟨l0, rest, rfl, hl0, rfl⟩ := reconstruct_ok hrec
    refine (foldl_apply_inv hsrc rest _ ?_ tr htr).2
    intro tr' htr'
    rcases List.mem_map.mp htr' with ⟨r, hr, rfl⟩
    exact seedTrip_inv hsrc hr

theorem c2_witness :
    monoB ⟨"A", [⟨some 0, some "B", some 5⟩, ⟨some 5, some "C", some 12⟩]⟩ =
      true :=
  c2_causal_join_monotone.2 srcHappy
    (by
      intro a b d r hr
      unfold srcHappy at hr
      split_ifs at hr
      · simp only [List.mem_singleton] at hr; subst hr; decide
      · simp only [List.mem_singleton] at hr; subst hr; decide
      · simp at hr)
    legsABBC
    [⟨"A", [⟨some 0, some "B", some 5⟩, ⟨some 5, some "C", some 12⟩]⟩]
    ⟨"A", [⟨some 0, some "B", some 5⟩, ⟨some 5, some "C", some 12⟩]⟩
    (by decide) (by decide)

/-- C3 counterexample: in the missed-connection scenario (the incoming
vehicle arrives at B at 5, the only B-C vehicle departs at 3) the causal
join finds no continuation, yet `reconstruct` still returns one trip row —
the row is not dropped, so it does not return zero TripRecords. -/
theorem c3_cex_missed_connection_row_kept :
    findNextConnection (srcMiss "B" "C" (some 1)) (some 5) = none ∧
    (reconstruct srcMiss legsABBC).map List.length = .ok 1 := by decide

/-- C3 (amended): when a ride leg's series has no entry departing at or
after a trip row's current arrival, the join appends a null continuation
(null station, departure and arrival) to that row, which stays in the
output as an incomplete record whose `total_time` is null; in the
missed-connection scenario the output is that single incomplete row, so the
complete trip records number zero. -/
theorem c3_missed_connection_null_row :
    (∀ (srcH : Source) (leg : Leg) (tr : Trip), leg.station_transfer = false →
        findNextConnection
          (srcH leg.departure_station leg.arrival_station leg.directionnum)
          (lastArr tr) = none →
        applyLeg srcH leg tr = ⟨tr.s0, tr.hops ++ [⟨none, none, none⟩]⟩) ∧
    reconstruct srcMiss legsABBC =
      .ok [⟨"A", [⟨some 0, some "B", some 5⟩, ⟨none, none, none⟩]⟩] ∧
    totalTime ⟨"A", [⟨some 0, some "B", some 5⟩, ⟨none, none, none⟩]⟩ = none ∧
    (reconstruct srcMiss legsABBC).map (fun trips => trips.filter completeB) =
      .ok [] := by
  refine ⟨?_, by decide, by decide, by decide⟩
  intro srcH leg tr h1 h2
  exact applyLeg_none h1 h2

theorem c3_witness :
    applyLeg srcMiss ⟨"B", "C", some 1, false⟩
        ⟨"A", [⟨some 0, some "B", some 5⟩]⟩ =
      ⟨"A", [⟨some 0, some "B", some 5⟩, ⟨none, none, none⟩]⟩ :=
  c3_missed_connection_null_row.1 srcMiss ⟨"B", "C", some 1, false⟩
    ⟨"A", [⟨some 0, some "B", some 5⟩]⟩ rfl (by decide)

/-- The long-wait trip row: each leg lasts minutes, the wait at B lasts
almost a week. -/
def tripLate : Trip :=
  ⟨"A", [⟨some 0, some "B", some 5⟩, ⟨some 10000, some "C", some 10010⟩]⟩

/-- C6 counterexample: the long-wait trip's total time (10010 minutes) is
far beyond the one-day bound, the row is complete, and `reconstruct` keeps
it in the output — nothing discards TripRecords by total time. -/
theorem c6_cex_long_trip_not_discarded :
    reconstruct srcLate legsABBC = .ok [tripLate] ∧
    totalTime tripLate = some 10010 ∧
    oneDay < 10010 ∧
    completeB tripLate = true := by decide

/-- C6 (amended): every complete output trip row's `total_time` is its final
arrival minus its initial departure, and when the source obeys the
`transit_time` query's per-row `delta < '1 day'` filter, every complete hop
of an output row lasts less than one day (rides by the filter, transfers by
the one-minute constant).  But `reconstruct` applies no bound to
`total_time` itself: the long-wait trip, whose total exceeds one day, stays
in the output. -/
theorem c6_total_time_formula_no_discard :
    (∀ (srcH : Source) (legs : List Leg) (trips : List Trip) (tr : Trip),
        reconstruct srcH legs = .ok trips → tr ∈ trips → completeB tr = true →
        ∃ dv av, firstDep tr = some dv ∧ lastArr tr = some av ∧
          totalTime tr = some (av - dv)) ∧
    (∀ (srcH : Source),
        (∀ a b d r, r ∈ srcH a b d →
          r.next_timestamp - r.timestamp < oneDay) →
        ∀ (legs : List Leg) (trips : List Trip) (tr : Trip),
          reconstruct srcH legs = .ok trips → tr ∈ trips →
          ∀ h ∈ tr.hops, ∀ dv av, h.dep = some dv → h.arr = some av →
            av - dv < oneDay) ∧
    reconstruct srcLate legsABBC = .ok [tripLate] ∧
    totalTime tripLate = some 10010 ∧ oneDay < 10010 := by
  refine ⟨?_, ?_, by decide, by decide, by decide⟩
  · intro srcH legs trips tr hrec htr hcomp
    have hne : tr.hops ≠ [] := by
      obtain ⟨l0, rest, rfl, hl0, rfl⟩ := reconstruct_ok hrec
      refine foldl_apply_pres (P := fun tr => tr.hops ≠ []) ?_ rest _ ?_ tr htr
      · intro leg tr0 h0
        unfold applyLeg
        split
        · simp
        · split <;> simp
      · intro tr' htr'
        rcases List.mem_map.mp htr' with ⟨r, -, rfl⟩
        simp [seedTrip]
    exact totalTime_eq hne hcomp
  · intro srcH hsrc legs trips tr hrec htr
    obtain ⟨l0, rest, rfl, hl0, rfl⟩ := reconstruct_ok hrec
    refine foldl_apply_pres (P := BoundInv) (fun leg tr0 h0 => applyLeg_bound hsrc h0)
      rest _ ?_ tr htr
    intro tr' htr'
    rcases List.mem_map.mp htr' with ⟨r, hr, rfl⟩
    exact seedTrip_bound hsrc hr

theorem c6_witness :
    ∃ dv av, firstDep tripLate = some dv ∧ lastArr tripLate = some av ∧
      totalTime tripLate = some (av - dv) :=
  c6_total_time_formula_no_discard.1 srcLate legsABBC [tripLate] tripLate
    (by decide) (by decide) (by decide)

/-- C9: a leg list whose first leg is a transfer makes `reconstruct` fail
with the `NotImplementedError` instead of producing trip rows; when the
first leg is a ride, the seeds are exactly one trip row per historical
departure/arrival pair of that hop, and every later leg preserves the row
count. -/
theorem c9_first_leg_seeding :
    (∀ (srcH : Source) (l0 : Leg) (rest : List Leg),
        l0.station_transfer = true →
        reconstruct srcH (l0 :: rest) = .error .notImplemented) ∧
    (∀ (srcH : Source) (l0 : Leg), l0.station_transfer = false →
        reconstruct srcH [l0] =
          .ok ((srcH l0.departure_station l0.arrival_station
            l0.directionnum).map seedTrip)) ∧
    (∀ (srcH : Source) (l0 : Leg) (rest : List Leg) (trips : List Trip),
        l0.station_transfer = false →
        reconstruct srcH (l0 :: rest) = .ok trips →
        trips.length =
          (srcH l0.departure_station l0.arrival_station
            l0.directionnum).length) := by
  refine ⟨?_, ?_, ?_⟩
  · intro srcH l0 rest h
    simp [reconstruct, h]
  · intro srcH l0 h
    simp [reconstruct, h]
  · intro srcH l0 rest trips h hok
    obtain ⟨l0', rest', heq, -, htr⟩ := reconstruct_ok hok
    injection heq with h1 h2
    subst h1
    subst h2
    rw [htr, foldl_map_length, List.length_map]

theorem c9_witness :
    reconstruct srcHappy [⟨"B", "A", some 1, true⟩] =
      .error .notImplemented ∧
    reconstruct srcHappy [⟨"A", "B", some 1, false⟩] =
      .ok ((srcHappy "A" "B" (some 1)).map seedTrip) := by
  constructor
  · exact c9_first_leg_seeding.1 srcHappy ⟨"B", "A", some 1, true⟩ [] rfl
  · exact c9_first_leg_seeding.2.1 srcHappy ⟨"A", "B", some 1, false⟩ rfl

/-- Metadata rows for the transfer fixture. -/
def namesAB : List NameRow := [⟨"A", "Alpha", 0, 0⟩, ⟨"B", "Beta", 0, 0⟩]

/-- A single transfer row: only one orientation of the pair. -/
def transfersAB : List (String × String) := [("A", "B")]

def gAB : UGr :=
  ⟨["A", "B"], [("A", "B", true)], [("A", "Alpha"), ("B", "Beta")],
    [("A", (0, 0)), ("B", (0, 0))]⟩

def dAB : DiGr :=
  ⟨["A", "B"], [("A", "B", transferAttrs)], [("A", "Alpha"), ("B", "Beta")],
    [("A", (0, 0)), ("B", (0, 0))]⟩

/-- C7 counterexample: with the single transfer row (A, B) the builder adds
the directed transfer edge A -> B only; no B -> A edge exists in the built
multigraph, so transfer edges are not added in both directions per source
row. -/
theorem c7_cex_single_row_one_direction :
    build_metro_network [] namesAB transfersAB = .ok (gAB, dAB) ∧
    ("A", "B", transferAttrs) ∈ dAB.edges ∧
    decide (("B", "A", transferAttrs) ∈ dAB.edges) = false := by decide

/-- C7 (amended): for every row (codeA, codeB) of the transfer relation the
builder adds one directed edge codeA -> codeB flagged `station_transfer`
with no line code or direction; the reverse edge arises only from the
symmetric row when the source contains it.  No edge of the multigraph
carries both the transfer flag and line attributes: every edge is either a
route edge (line code and direction present, flag unset) or a transfer edge
(flag set, line code and direction absent). -/
theorem c7_one_transfer_edge_per_row :
    ∀ (nbrs : List NbrRow) (names : List NameRow)
      (transfers : List (String × String)) (g : UGr) (d : DiGr),
      build_metro_network nbrs names transfers = .ok (g, d) →
      (∀ p ∈ transfers, (p.1, p.2, transferAttrs) ∈ d.edges) ∧
      (∀ e ∈ d.edges,
        ((eAttr e).station_transfer = false ∧ (eAttr e).linecode.isSome ∧
          (eAttr e).directionnum.isSome) ∨
        ((eAttr e).station_transfer = true ∧ (eAttr e).linecode = none ∧
          (eAttr e).directionnum = none)) := by
  intro nbrs names transfers g d h
  refine ⟨?_, build_edge_shapes h⟩
  intro p hp
  rw [build_ok_edges h]
  refine List.mem_append.mpr (.inr ?_)
  exact List.mem_map.mpr ⟨p, hp, rfl⟩

theorem c7_witness :
    (∀ p ∈ transfersAB, (p.1, p.2, transferAttrs) ∈ dAB.edges) ∧
    (∀ e ∈ dAB.edges,
      ((eAttr e).station_transfer = false ∧ (eAttr e).linecode.isSome ∧
        (eAttr e).directionnum.isSome) ∨
      ((eAttr e).station_transfer = true ∧ (eAttr e).linecode = none ∧
        (eAttr e).directionnum = none)) :=
  c7_one_transfer_edge_per_row [] namesAB transfersAB gAB dAB (by decide)

/-- One adjacency row X -> Y on line RD. -/
def nbrsXY : List NbrRow := [⟨"RD", "X", none, some "Y"⟩]

/-- Metadata covering X but not the referenced Y. -/
def namesX : List NameRow := [⟨"X", "Xenon", 0, 0⟩]

/-- Metadata for a station that is in no graph at all. -/
def namesZ : List NameRow := [⟨"Z", "Zeta", 0, 0⟩]

def gXY : UGr := ⟨["X", "Y"], [("X", "Y", false)], [("X", "Xenon")], [("X", (0, 0))]⟩

def dXY : DiGr :=
  ⟨["X", "Y"], [("X", "Y", ⟨some "RD", some 1, false⟩)], [("X", "Xenon")],
    [("X", (0, 0))]⟩

/-- C8 counterexample: the adjacency row X -> Y has no metadata row for Y,
yet the builder succeeds, returning graphs in which Y is a node with no
name and no coordinates — no integrity error is raised for a dangling
adjacency code. -/
theorem c8_cex_dangling_adjacency_accepted :
    build_metro_network nbrsXY namesX [] = .ok (gXY, dXY) ∧
    "Y" ∈ dXY.nodes ∧
    List.lookup "Y" dXY.names = none ∧
    List.lookup "Y" dXY.latlon = none := by decide

/-- C8 (amended): the builder fails — with the `KeyError` of
`g.node[row.stationcode]` naming the station — exactly when some
station-metadata row's code is not a node of both graphs.  Adjacency or
transfer rows whose codes have no metadata never abort the build: their
nodes are left without name or coordinate attributes, as the dangling Y
shows, while a metadata row for the absent station Z is fatal. -/
theorem c8_failure_is_metadata_driven :
    (∀ (nbrs : List NbrRow) (names : List NameRow)
        (transfers : List (String × String)),
        (∃ gd, build_metro_network nbrs names transfers = .ok gd) ↔
        ∀ r ∈ names, r.stationcode ∈ undirNodes0 nbrs transfers ∧
          r.stationcode ∈ diNodes0 nbrs transfers) ∧
    build_metro_network nbrsXY namesX [] = .ok (gXY, dXY) ∧
    List.lookup "Y" dXY.names = none ∧
    build_metro_network [] namesZ [] = .error (.keyError "Z") := by
  refine ⟨?_, by decide, by decide, by decide⟩
  intro nbrs names transfers
  exact decorateAux_ok_iff names _ _

theorem c8_witness :
    ∃ gd, build_metro_network nbrsXY namesX [] = .ok gd :=
  (c8_failure_is_metadata_driven.1 nbrsXY namesX []).mpr (by decide)

end Wmata
